import Mathlib

/-!
Verification development for the vite-plugin-vitepress-auto-nav core engine
(tree construction, configuration resolution, ordering, serialization).

The definitions below are a shallow embedding of the latest variant of the
engine: serializationPaths / sortStructuredData / defaultCompareFn /
generateNav / generateSidebar (src/unnamed/part_004), the utilities
getFolderCommitTimes / updateCommitTimes (src/unnamed/part_001), and the
nav-writing step of the config hook (src/src/index.ts).

Modelling conventions:
- JS numbers are modelled as Int (all values exercised are epoch-millisecond
  timestamps, sort weights and sibling indices). JS NaN is outside the
  modelled domain.
- JS objects holding heterogeneous frontmatter data are association lists
  of String/Value pairs; property lookup is first-match lookup.
- Filesystem, git and file-content collaborators (stat / git log /
  gray-matter) are an explicit environment of pure functions, keyed by the
  same path strings the code passes them.
- JS "a ?? b" is jsCoalesce, "a || b" / "a && b" on possibly-undefined
  values are jsOrVal / jsAndVal, and "a || b" on numbers is jsOrInt.
- Array.prototype.sort with a comparator (stable since ES2019) is modelled
  as the stable List.insertionSort with the relation "comparator <= 0".
-/

/-- A JS value stored in frontmatter or in an options bag: the plugin only
ever stores numbers, booleans and strings there. -/
inductive Value where
  | vNum (n : Int)
  | vBool (b : Bool)
  | vStr (s : String)
deriving DecidableEq

/-- JS truthiness of a `Value` (0, false and "" are falsy). -/
def Value.truthy : Value → Bool
  | .vNum n => n != 0
  | .vBool b => b
  | .vStr s => s != ""

/-- JS ToNumber on the stored value kinds. Non-numeric strings give NaN in
JS, which is outside the modelled domain (they are mapped to 0 here; no
theorem below exercises a string sort weight). -/
def Value.toNumber : Value → Int
  | .vNum n => n
  | .vBool b => if b then 1 else 0
  | .vStr s => (s.toInt?).getD 0

/-- JS truthiness of a possibly-undefined value (undefined is falsy). -/
def truthyO : Option Value → Bool
  | none => false
  | some v => v.truthy

/-- JS nullish coalescing "a ?? b" on possibly-undefined values. -/
def jsCoalesce {α : Type} (a b : Option α) : Option α :=
  match a with
  | some v => some v
  | none => b

/-- JS "a || b" on possibly-undefined values. -/
def jsOrVal (a b : Option Value) : Option Value :=
  if truthyO a then a else b

/-- JS "a && b" on possibly-undefined values. -/
def jsAndVal (a b : Option Value) : Option Value :=
  if truthyO a then b else a

/-- JS "a || d" where the fallback d is a present value. -/
def jsOrValD (a : Option Value) (d : Value) : Value :=
  match a with
  | some v => if v.truthy then v else d
  | none => d

/-- JS "x || y" on numbers (x falsy exactly when x = 0; NaN unmodelled). -/
def jsOrInt (x y : Int) : Int :=
  if x = 0 then y else x

/-- JS "fc || bt!" on an optional number fc and an asserted-non-null bt:
undefined or 0 falls through to bt. An actually-absent bt (whose use would
produce NaN in JS) is outside the modelled domain and maps to 0. -/
def jsOrNum (fc bt : Option Int) : Int :=
  match fc with
  | some n => if n = 0 then bt.getD 0 else n
  | none => bt.getD 0

/-- JS strict equality "v === n" between a stored value and a number
(no coercion: only a number compares equal to a number). -/
def valueStrictEqInt (v : Value) (n : Int) : Bool :=
  match v with
  | .vNum m => m == n
  | _ => false

/-- Node path.join for the clean relative paths the plugin builds:
join("", b) = b, join(a, b) = a/b. -/
def joinPath (a b : String) : String :=
  if a = "" then b else a ++ "/" ++ b

/-- path.split(sep): split a relative path on the separator. -/
def splitSlashAux : List Char → List Char → List String
  | [], acc => [String.mk acc.reverse]
  | c :: rest, acc =>
    if c = '/' then String.mk acc.reverse :: splitSlashAux rest []
    else splitSlashAux rest (c :: acc)

/-- path.split(sep) on a whole path string. -/
def splitSlash (s : String) : List String :=
  splitSlashAux s.data []

/-- The three characters of the pattern ".md". -/
def mdChars : List Char := ['.', 'm', 'd']

/-- JS String.prototype.replace(".md", "") on a character list: removes the
first occurrence of ".md" only (string patterns replace a single
occurrence). -/
def replaceFirstMd : List Char → List Char
  | [] => []
  | c :: rest =>
    if mdChars.isPrefixOf (c :: rest) then rest.drop 2
    else c :: replaceFirstMd rest

/-- name.replace(".md", ""), as used throughout the serializer for display
names and links. -/
def stripMd (s : String) : String :=
  String.mk (replaceFirstMd s.data)

/-- Whether ".md" occurs as a substring (used only in theorem statements). -/
def containsMd : List Char → Bool
  | [] => false
  | c :: rest => mdChars.isPrefixOf (c :: rest) || containsMd rest

/-- Frontmatter (plus the extracted h1): a flat JS object, modelled as an
association list with first-match lookup. -/
def Frontmatter := List (String × Value)

/-- JS property lookup on a frontmatter object. -/
def fmLookup : Frontmatter → String → Option Value
  | [], _ => none
  | (k, v) :: rest, key => if k == key then some v else fmLookup rest key

/-- TimesInfo (types/index.d.ts): local birth/modify times and git
first/last commit times, each possibly undefined. -/
structure TimesInfo where
  birthTime : Option Int := none
  modifyTime : Option Int := none
  firstCommitTime : Option Int := none
  lastCommitTime : Option Int := none
deriving DecidableEq

/-- ItemOptions (types/index.d.ts): one itemsSetting entry. -/
structure ItemOptions where
  hide : Option Bool := none
  sort : Option Int := none
  title : Option String := none
  useArticleTitle : Option Bool := none
  collapsed : Option Bool := none
deriving DecidableEq

/-- ItemCacheOptions = ItemOptions and TimesInfo merged into one bag, as in
types/index.d.ts. -/
structure ItemCacheOptions where
  collapsed : Option Bool := none
  hide : Option Bool := none
  sort : Option Int := none
  title : Option String := none
  useArticleTitle : Option Bool := none
  birthTime : Option Int := none
  modifyTime : Option Int := none
  firstCommitTime : Option Int := none
  lastCommitTime : Option Int := none
deriving DecidableEq

/-- JS dynamic property access "(options as any)[key]" on the
ItemCacheOptions bag: returns the field named by the key, undefined for
any other key. -/
def ItemCacheOptions.get (o : ItemCacheOptions) (key : String) : Option Value :=
  if key = "collapsed" then o.collapsed.map Value.vBool
  else if key = "hide" then o.hide.map Value.vBool
  else if key = "sort" then o.sort.map Value.vNum
  else if key = "title" then o.title.map Value.vStr
  else if key = "useArticleTitle" then o.useArticleTitle.map Value.vBool
  else if key = "birthTime" then o.birthTime.map Value.vNum
  else if key = "modifyTime" then o.modifyTime.map Value.vNum
  else if key = "firstCommitTime" then o.firstCommitTime.map Value.vNum
  else if key = "lastCommitTime" then o.lastCommitTime.map Value.vNum
  else none

/-- Item (types/index.d.ts): one node of the constructed tree. -/
inductive Item where
  | mk (index : Nat) (name : String) (isFolder : Bool) (options : ItemCacheOptions)
      (frontmatter : Frontmatter) (children : List Item)

/-- The sibling position index of an item. -/
def Item.index : Item → Nat
  | .mk i _ _ _ _ _ => i

/-- The file or folder name of an item. -/
def Item.name : Item → String
  | .mk _ n _ _ _ _ => n

/-- Whether the item is a folder. -/
def Item.isFolder : Item → Bool
  | .mk _ _ f _ _ _ => f

/-- The merged options bag of an item. -/
def Item.options : Item → ItemCacheOptions
  | .mk _ _ _ o _ _ => o

/-- The frontmatter of an item. -/
def Item.frontmatter : Item → Frontmatter
  | .mk _ _ _ _ fm _ => fm

/-- The children of an item. -/
def Item.children : Item → List Item
  | .mk _ _ _ _ _ c => c

/-- Modelled from the spec: the prefix-aware getTargetOptionValue that
serializationPaths, defaultCompareFn and the sidebar serializer in
src/unnamed/part_004 invoke with a fourth frontmatterPrefix argument. Its
body is not under src/: src/unnamed/part_001 lines 113-119 only holds an
older 3-parameter variant that hardcodes the "nav" prefix and could not be
the called overload. Per spec 4.2 the precedence is: document metadata
under the prefixed key, then under the bare key, then the explicit
settings value (the options bag). -/
def getTargetOptionValue (frontmatter : Frontmatter) (options : ItemCacheOptions)
    (key : String) (pfx : String) : Option Value :=
  jsCoalesce (fmLookup frontmatter (pfx ++ "-" ++ key))
    (jsCoalesce (fmLookup frontmatter key) (options.get key))

/-- The 3-parameter resolver of src/unnamed/part_001 lines 113-119 and
src/src/index.ts lines 499-505, with the hardcoded "nav" prefix:
frontmatter["nav-" + key] ?? frontmatter[key] ?? options[key]. -/
def getTargetOptionValueNav (frontmatter : Frontmatter) (options : ItemCacheOptions)
    (key : String) : Option Value :=
  jsCoalesce (fmLookup frontmatter ("nav-" ++ key))
    (jsCoalesce (fmLookup frontmatter key) (options.get key))

/-- The resolved sort weight of an item: getTargetOptionValue(...,"sort",pfx). -/
def resolvedSort (pfx : String) (it : Item) : Option Value :=
  getTargetOptionValue it.frontmatter it.options "sort" pfx

/-- The resolved sort weight as a number, defaulting to 0 when undefined
(only used in theorem statements whose hypotheses make it defined). -/
def sortWeightD (pfx : String) (it : Item) : Int :=
  ((resolvedSort pfx it).map Value.toNumber).getD 0

/-- Earliest timestamp per the spec glossary: the version-control
first-commit time if known, else the local file creation time (an absent
creation time maps to 0, matching jsOrNum's treatment of the non-null
assertion). -/
def earliestTimestamp (o : ItemCacheOptions) : Int :=
  match o.firstCommitTime with
  | some n => n
  | none => o.birthTime.getD 0

/-- defaultCompareFn (src/unnamed/part_004 lines 145-183): the default
comparator over two sibling items, given the configured frontmatter
prefix. -/
def defaultCompareFn (a b : Item) (pfx : String) : Int :=
  let sortA := getTargetOptionValue a.frontmatter a.options "sort" pfx
  let sortB := getTargetOptionValue b.frontmatter b.options "sort" pfx
  let timeA := jsOrNum a.options.firstCommitTime a.options.birthTime
  let timeB := jsOrNum b.options.firstCommitTime b.options.birthTime
  match sortA, sortB with
  | some sa, some sb => jsOrInt (sa.toNumber - sb.toNumber) (timeA - timeB)
  | some sa, none =>
    if valueStrictEqInt sa (b.index : Int) then -1 else sa.toNumber - (b.index : Int)
  | none, some sb =>
    if valueStrictEqInt sb (a.index : Int) then 1 else (a.index : Int) - sb.toNumber
  | none, none => timeA - timeB

mutual

/-- The per-level pass of sortStructuredData (src/unnamed/part_004 lines
120-142): the .map assigns each item its pre-sort sibling index (in input
order, before the sort) and sorts its children recursively. -/
def assignIndexes (cmp : Item → Item → String → Int) (pfx : String) :
    List Item → Nat → List Item
  | [], _ => []
  | it :: rest, i => assignItem cmp pfx it i :: assignIndexes cmp pfx rest (i + 1)

/-- One item of the assignIndexes pass: item.index = i, and non-empty
children get the inlined body of sortStructuredData on the children. -/
def assignItem (cmp : Item → Item → String → Int) (pfx : String) : Item → Nat → Item
  | .mk _ name isF opts fm children, i =>
    Item.mk i name isF opts fm
      (if children.length > 0 then
        List.insertionSort (fun a b => cmp a b pfx ≤ 0) (assignIndexes cmp pfx children 0)
      else children)

end

/-- sortStructuredData (src/unnamed/part_004 lines 120-142): index
assignment and recursive child sorting followed by the stable sort with
the comparator. The compareFn parameter defaults to defaultCompareFn at
every call site below, as in the source. -/
def sortStructuredData (cmp : Item → Item → String → Int) (pfx : String)
    (data : List Item) : List Item :=
  List.insertionSort (fun a b => cmp a b pfx ≤ 0) (assignIndexes cmp pfx data 0)

/-- The collaborator environment: stat().isDirectory(), getTimestamp (the
cache/git/stat chain of src/unnamed/part_001 lines 36-104, keyed by path
and folder flag) and getArticleData (frontmatter plus extracted h1), each
as a pure function of the real path the code passes. -/
structure Env where
  isDirectory : String → Bool
  times : String → Bool → TimesInfo
  article : String → Frontmatter

/-- The plugin options consumed by the embedded core (types/index.d.ts):
itemsSetting (already normalized: node path.normalize is the identity on
the clean slash-separated keys modelled here), the global useArticleTitle
default, the frontmatter prefix (source name frontmatterPrefix) and
indexAsFolderLink. -/
structure PluginOptions where
  itemsSetting : List (String × ItemOptions) := []
  useArticleTitle : Option Bool := none
  fmPfx : Option String := none
  indexAsFolderLink : Option Bool := none

/-- The itemsSetting match of src/unnamed/part_004 lines 53-61: first an
exact path match against the accumulated relative path, else a name match
(raw name or name with ".md" replaced); the first matching key wins. -/
def findSettingKey (settings : List (String × ItemOptions)) (curPath name : String) :
    Option ItemOptions :=
  let pathKeys := settings.map Prod.fst
  let byPath := pathKeys.find? (fun p => curPath == p)
  let key :=
    match byPath with
    | some k => some k
    | none => pathKeys.find? (fun p => name == p || stripMd name == p)
  key.bind (fun k => (settings.find? (fun e => e.1 == k)).map Prod.snd)

/-- stat(realPath).isDirectory() for a segment's accumulated path. -/
def segIsFolder (env : Env) (srcDir curPath : String) : Bool :=
  env.isDirectory (joinPath srcDir curPath)

/-- The options bag built for one path segment (src/unnamed/part_004 lines
50-81): the matched itemsSetting entry (with useArticleTitle falling back
to the global default via ??), spread with the timestamp data. -/
def segOptions (opts : PluginOptions) (env : Env) (srcDir curPath name : String) :
    ItemCacheOptions :=
  let base : ItemCacheOptions :=
    match findSettingKey opts.itemsSetting curPath name with
    | some s =>
      { collapsed := s.collapsed
        hide := s.hide
        sort := s.sort
        title := s.title
        useArticleTitle := jsCoalesce s.useArticleTitle opts.useArticleTitle }
    | none => { useArticleTitle := opts.useArticleTitle }
  let t := env.times (joinPath srcDir curPath) (segIsFolder env srcDir curPath)
  { base with
    birthTime := t.birthTime
    modifyTime := t.modifyTime
    firstCommitTime := t.firstCommitTime
    lastCommitTime := t.lastCommitTime }

/-- The frontmatter read for one path segment (src/unnamed/part_004 lines
83-87): getArticleData for files, empty for folders. -/
def segFrontmatter (env : Env) (srcDir curPath : String) : Frontmatter :=
  if !(segIsFolder env srcDir curPath) then env.article (joinPath srcDir curPath) else []

/-- The hide check of src/unnamed/part_004 line 94: whether the resolved
"hide" value for the segment is truthy. -/
def segHidden (opts : PluginOptions) (env : Env) (srcDir curPath name : String) : Bool :=
  truthyO (getTargetOptionValue (segFrontmatter env srcDir curPath)
    (segOptions opts env srcDir curPath name) "hide" (opts.fmPfx.getD ""))

mutual

/-- The inner segment loop of serializationPaths (src/unnamed/part_004
lines 42-114) for one path's remaining segments: resolve the segment,
stop the whole path on a truthy hide, else reuse or append the sibling
node and descend into its children. The cache/visitedCache writes are
persistence plumbing carried by Env and not modelled. -/
def insertPath (opts : PluginOptions) (env : Env) (srcDir : String)
    (siblings : List Item) (parts : List String) (currentPath : String) : List Item :=
  match parts with
  | [] => siblings
  | name :: rest =>
    let curPath := joinPath currentPath name
    if segHidden opts env srcDir curPath name then siblings
    else insertIntoSiblings opts env srcDir siblings name rest curPath
termination_by (parts.length, siblings.length + 1)

/-- The find-or-append step of the segment loop: the first sibling with the
segment's name is reused (descending into its children), otherwise a new
node is pushed at the end with placeholder index 0. -/
def insertIntoSiblings (opts : PluginOptions) (env : Env) (srcDir : String)
    (siblings : List Item) (name : String) (rest : List String) (curPath : String) :
    List Item :=
  match siblings with
  | [] =>
    [Item.mk 0 name (segIsFolder env srcDir curPath)
      (segOptions opts env srcDir curPath name)
      (segFrontmatter env srcDir curPath)
      (insertPath opts env srcDir [] rest curPath)]
  | node :: tail =>
    if node.name == name then
      (match node with
        | .mk i n f o fm ch => Item.mk i n f o fm (insertPath opts env srcDir ch rest curPath))
      :: tail
    else node :: insertIntoSiblings opts env srcDir tail name rest curPath
termination_by (rest.length + 1, siblings.length)

end

/-- serializationPaths (src/unnamed/part_004 lines 17-117): fold every
input path's segments into the shared forest. -/
def serializationPaths (paths : List String) (opts : PluginOptions) (srcDir : String)
    (env : Env) : List Item :=
  paths.foldl (fun root path => insertPath opts env srcDir root (splitSlash path) "") []

/-- The accumulated currentPath after walking a list of leading segments. -/
def pathAccum (cur : String) (pre : List String) : String :=
  pre.foldl joinPath cur

/-- The "maxLastCommitTime === 0 ? undefined : maxLastCommitTime"
post-processing of getFolderCommitTimes: the surviving 0 sentinel maps
back to undefined. -/
def zeroToNone : Option Int → Option Int
  | some 0 => none
  | v => v

/-- min over the integers extended with the Infinity sentinel of
getFolderCommitTimes: undefined stands for Infinity. -/
def jsMinInf (a b : Option Int) : Option Int :=
  match a, b with
  | none, none => none
  | some x, none => some x
  | none, some y => some y
  | some x, some y => some (min x y)

mutual

/-- The loop of getFolderCommitTimes (src/unnamed/part_001 lines 122-157)
with its two accumulators: each child contributes a min/max pair folded in
with the Infinity / 0 sentinel arithmetic of the source. -/
def gfcFold : List Item → Option Int × Option Int → Option Int × Option Int
  | [], acc => acc
  | item :: rest, (mn, mx) =>
    let contrib := gfcContrib item
    gfcFold rest (jsMinInf mn contrib.1, some (max (mx.getD 0) (contrib.2.getD 0)))

/-- One child's contribution to the getFolderCommitTimes loop: a folder
recurses (through the inlined body of getFolderCommitTimes, i.e. the loop
started on empty accumulators with the sentinel post-processing applied);
a file contributes its own commit times. -/
def gfcContrib : Item → Option Int × Option Int
  | .mk _ _ isF opts _ children =>
    if isF then
      let r := gfcFold children (none, none)
      (r.1, zeroToNone r.2)
    else (opts.firstCommitTime, opts.lastCommitTime)

end

/-- getFolderCommitTimes (src/unnamed/part_001 lines 122-157): min/max
commit times over a children list, undefined when the Infinity / 0
sentinels survive. -/
def getFolderCommitTimes (children : List Item) : Option Int × Option Int :=
  let r := gfcFold children (none, none)
  (r.1, zeroToNone r.2)

mutual

/-- updateCommitTimes (src/unnamed/part_001 lines 160-169): bottom-up pass
writing every folder's aggregated first/last commit times. -/
def updateCommitTimes : List Item → List Item
  | [] => []
  | item :: rest => updateItem item :: updateCommitTimes rest

/-- One item of the updateCommitTimes pass: folders first update their
children, then take getFolderCommitTimes of the updated children; files
are untouched. -/
def updateItem : Item → Item
  | .mk i name isF opts fm children =>
    if isF then
      let ch := updateCommitTimes children
      let ft := getFolderCommitTimes ch
      Item.mk i name isF
        { opts with
          firstCommitTime := ft.1
          lastCommitTime := ft.2 } fm ch
    else Item.mk i name isF opts fm children

end

mutual

/-- The first-commit timestamps carried by the descendant file nodes of an
item (folders contribute their subtree's files). -/
def descFirsts : Item → List Int
  | .mk _ _ isF opts _ children =>
    if isF then descFirstsL children else opts.firstCommitTime.toList

/-- descFirsts over a children list. -/
def descFirstsL : List Item → List Int
  | [] => []
  | it :: rest => descFirsts it ++ descFirstsL rest

end

mutual

/-- The last-commit timestamps carried by the descendant file nodes of an
item. -/
def descLasts : Item → List Int
  | .mk _ _ isF opts _ children =>
    if isF then descLastsL children else opts.lastCommitTime.toList

/-- descLasts over a children list. -/
def descLastsL : List Item → List Int
  | [] => []
  | it :: rest => descLasts it ++ descLastsL rest

end

mutual

/-- All nodes of a subtree, the root included. -/
def allNodes : Item → List Item
  | it@(.mk _ _ _ _ _ children) => it :: allNodesL children

/-- All nodes of a forest. -/
def allNodesL : List Item → List Item
  | [] => []
  | it :: rest => allNodes it ++ allNodesL rest

end

mutual

/-- Data-model invariant (spec 3): a node with isFolder = false never has
children. -/
def filesChildless : Item → Bool
  | .mk _ _ isF _ _ children =>
    (isF || children.isEmpty) && filesChildlessL children

/-- filesChildless over a forest. -/
def filesChildlessL : List Item → Bool
  | [] => true
  | it :: rest => filesChildless it && filesChildlessL rest

end

/-- The minimum of an integer list, none when empty (used only in theorem
statements). -/
def minO : List Int → Option Int
  | [] => none
  | x :: rest =>
    match minO rest with
    | none => some x
    | some y => some (min x y)

/-- The maximum of an integer list, none when empty (used only in theorem
statements). -/
def maxO : List Int → Option Int
  | [] => none
  | x :: rest =>
    match maxO rest with
    | none => some x
    | some y => some (max x y)

/-- The 0-floored maximum fold that the getFolderCommitTimes loop computes
on its max side. -/
def maxZ : List Int → Int
  | [] => 0
  | x :: rest => max x (maxZ rest)

/-- One entry of the generated sidebar (vitepress DefaultTheme.SidebarItem,
with the fields the plugin writes). -/
inductive SidebarItem where
  | mk (text : Value) (collapsed : Option Bool) (items : Option (List SidebarItem))
      (link : Option String)

/-- The display-name chain of traverseSubFile (src/unnamed/part_004 lines
237-251): title || (useArticleTitle && frontmatter.h1) || stripped name. -/
def fileNameOf (pfx : String) (file : Item) : Value :=
  jsOrValD
    (jsOrVal (getTargetOptionValue file.frontmatter file.options "title" pfx)
      (jsAndVal (getTargetOptionValue file.frontmatter file.options "useArticleTitle" pfx)
        (fmLookup file.frontmatter "h1")))
    (Value.vStr (stripMd file.name))

/-- The sidebar entry pushed for a non-folder item (src/unnamed/part_004
line 261): text plus the ".md"-stripped link. -/
def sidebarFileEntry (pfx parentPath : String) (file : Item) : SidebarItem :=
  .mk (fileNameOf pfx file) none none
    (some (stripMd (parentPath ++ "/" ++ file.name)))

mutual

/-- The reduce of traverseSubFile (src/unnamed/part_004 lines 218-267),
with the mutable link variable threaded as an accumulator: an index item
(stripped name "index") sets the pending link and is skipped when
indexAsFolderLink is active; a folder recurses and carries the subtree's
link; a file pushes its entry. -/
def traverseGo (iafl : Bool) (pfx : String) :
    List Item → String → Option String → Option String × List SidebarItem
  | [], _, link => (link, [])
  | file :: rest, parentPath, link =>
    let isIdx : Bool := stripMd file.name == "index"
    let filePath : String :=
      if isIdx then parentPath ++ "/" else parentPath ++ "/" ++ file.name
    if iafl && isIdx then traverseGo iafl pfx rest parentPath (some filePath)
    else if file.isFolder then
      let result := traverseChildren iafl pfx file filePath
      let r2 := traverseGo iafl pfx rest parentPath link
      (r2.1,
        SidebarItem.mk (fileNameOf pfx file) (some (file.options.collapsed.getD false))
          (some result.2) result.1 :: r2.2)
    else
      let r2 := traverseGo iafl pfx rest parentPath link
      (r2.1, sidebarFileEntry pfx parentPath file :: r2.2)

/-- The recursive call traverseSubFile(file.children, filePath) made for a
folder entry: the reduce restarted on the folder's children with no
pending link. -/
def traverseChildren (iafl : Bool) (pfx : String) : Item → String →
    Option String × List SidebarItem
  | .mk _ _ _ _ _ children, filePath => traverseGo iafl pfx children filePath none

end

/-- traverseSubFile (src/unnamed/part_004 lines 218-267): the recursive
sidebar serializer for one children list, returning the pending index link
and the entries. -/
def traverseSubFile (iafl : Bool) (pfx : String) (subData : List Item)
    (parentPath : String) : Option String × List SidebarItem :=
  traverseGo iafl pfx subData parentPath none

/-- generateSidebar (src/unnamed/part_004 lines 206-270): one sidebar group
per top-level item, keyed by "/name/", holding the serialized children
(the top-level pending link is discarded, as in the source). -/
def generateSidebar (structuredData : List Item) (opts : PluginOptions) :
    List (String × List SidebarItem) :=
  structuredData.map (fun it =>
    ("/" ++ it.name ++ "/",
      (traverseSubFile (opts.indexAsFolderLink.getD true) (opts.fmPfx.getD "")
        it.children ("/" ++ it.name)).2))

/-- One generated nav entry. -/
structure NavItem where
  text : String
  activeMatch : String
  link : String
deriving DecidableEq

/-- getFirstArticleFromFolder (src/unnamed/part_004 lines 195-203): descend
into the first child until a childless node, then strip ".md" from the
accumulated path. -/
def getFirstArticleFromFolder : Item → String → String
  | .mk _ name _ _ _ [], path => stripMd (path ++ "/" ++ name)
  | .mk _ name _ _ _ (c :: _), path => getFirstArticleFromFolder c (path ++ "/" ++ name)

/-- JS "title || name" for the nav text (an empty title is falsy). -/
def jsOrStr (t : Option String) (dflt : String) : String :=
  match t with
  | some s => if s = "" then dflt else s
  | none => dflt

/-- generateNav (src/unnamed/part_004 lines 186-192). -/
def generateNav (structuredData : List Item) : List NavItem :=
  structuredData.map (fun it =>
    { text := jsOrStr it.options.title it.name
      activeMatch := "/" ++ it.name ++ "/"
      link := getFirstArticleFromFolder it "" })

/-- The nav/sidebar writing step of the config hook (src/src/index.ts lines
183-192): nav is generated only when the host themeConfig.nav is falsy (an
existing array, even empty, is truthy in JS and is left untouched); the
sidebar is always generated and written. -/
def applyAutoNav (existingNav : Option (List NavItem)) (data : List Item)
    (opts : PluginOptions) : Option (List NavItem) × List (String × List SidebarItem) :=
  (match existingNav with
    | none => some (generateNav data)
    | some nav => some nav,
   generateSidebar data opts)

/-- Fixture for the spec's precedence scenario: the environment in which
"c" is a folder and "c/b" is a file whose document metadata defines
sort: 7 (timestamps are irrelevant to the scenario and left undefined). -/
def scenarioEnv : Env :=
  { isDirectory := fun p => p == "c"
    times := fun _ _ => {}
    article := fun p => if p == "c/b" then [("sort", Value.vNum 7)] else [] }

/-- Fixture for the spec's precedence scenario: itemsSetting with the
path-keyed entry "c/b" carrying sort: 3. -/
def scenarioOptions : PluginOptions :=
  { itemsSetting := [("c/b", { sort := some 3 })] }

/-! ## Helper lemmas -/

theorem jsCoalesce_some {α : Type} (v : α) (b : Option α) :
    jsCoalesce (some v) b = some v := rfl

theorem jsCoalesce_none {α : Type} (b : Option α) : jsCoalesce none b = b := rfl

theorem getTargetOptionValueNav_is_prefixed (fm : Frontmatter) (o : ItemCacheOptions)
    (key : String) : getTargetOptionValueNav fm o key = getTargetOptionValue fm o key "nav" := rfl

/-! ## C3 -/

/-- C3: for every configured frontmatter prefix p and attribute key k, the
resolver gives highest precedence to the document-metadata entry under the
prefixed key "p-k", ahead of the bare key and of any itemsSetting value
held in the options bag. -/
theorem c3_prefixed_key_highest_precedence (fm : Frontmatter) (opts : ItemCacheOptions)
    (key pfx : String) (v : Value) (h : fmLookup fm (pfx ++ "-" ++ key) = some v) :
    getTargetOptionValue fm opts key pfx = some v := by
  simp [getTargetOptionValue, h, jsCoalesce]

/-- Witness for C3 at a concrete input: prefix "p", key "sort", with the
prefixed entry, the bare entry and an itemsSetting sort all present. -/
theorem c3_prefixed_key_highest_precedence_witness :
    getTargetOptionValue [("p-sort", Value.vNum 1), ("sort", Value.vNum 2)]
      { sort := some 3 } "sort" "p" = some (Value.vNum 1) :=
  c3_prefixed_key_highest_precedence _ _ _ _ _ rfl

/-! ## C4 -/

/-- C4: when the frontmatter defines the bare key (and not the prefixed
key), the resolved value is the frontmatter value regardless of the
itemsSetting-derived options; the options value is used only when the
frontmatter defines neither key; and in the spec's scenario (itemsSetting
"c/b" with sort 3, document metadata sort 7) the tree built by
serializationPaths resolves the item's sort weight to 7. -/
theorem c4_metadata_beats_itemsSetting :
    (∀ (fm : Frontmatter) (opts : ItemCacheOptions) (key pfx : String) (v : Value),
      fmLookup fm (pfx ++ "-" ++ key) = none → fmLookup fm key = some v →
      getTargetOptionValue fm opts key pfx = some v)
  ∧ (∀ (fm : Frontmatter) (opts : ItemCacheOptions) (key pfx : String),
      fmLookup fm (pfx ++ "-" ++ key) = none → fmLookup fm key = none →
      getTargetOptionValue fm opts key pfx = opts.get key)
  ∧ (serializationPaths ["c/b"] scenarioOptions "" scenarioEnv).map
      (fun it => it.children.map (resolvedSort "")) = [[some (Value.vNum 7)]] := by
  refine ⟨?_, ?_, ?_⟩
  · intro fm opts key pfx v h1 h2
    simp [getTargetOptionValue, h1, h2, jsCoalesce]
  · intro fm opts key pfx h1 h2
    simp [getTargetOptionValue, h1, h2, jsCoalesce]
  · simp [serializationPaths, insertPath, insertIntoSiblings, splitSlash, splitSlashAux,
      segHidden, segOptions, segFrontmatter, segIsFolder, findSettingKey, scenarioEnv,
      scenarioOptions, joinPath, getTargetOptionValue, fmLookup, jsCoalesce, truthyO,
      ItemCacheOptions.get, Item.children, Item.name, resolvedSort, Item.frontmatter,
      Item.options, stripMd, replaceFirstMd, mdChars, List.isPrefixOf]

/-- Witness for C4's universally quantified parts at concrete inputs. -/
theorem c4_metadata_beats_itemsSetting_witness :
    getTargetOptionValue [("sort", Value.vNum 7)] { sort := some 3 } "sort" "" =
      some (Value.vNum 7)
  ∧ getTargetOptionValue [] { sort := some 3 } "sort" "" = some (Value.vNum 3) :=
  ⟨c4_metadata_beats_itemsSetting.1 [("sort", Value.vNum 7)] { sort := some 3 }
      "sort" "" (Value.vNum 7) rfl rfl,
   by
    rw [c4_metadata_beats_itemsSetting.2.1 ([] : Frontmatter) { sort := some 3 }
      "sort" "" rfl rfl]
    rfl⟩

/-! ## C1 -/

/-- C1: when exactly one of two siblings has a resolved (numeric) sort
weight, the default comparison orders the weighted item first when the
weight equals the other item's pre-sort sibling index, otherwise its
result has the sign of (weight minus the other item's index); and
swapping the two arguments negates the result exactly. -/
theorem c1_single_weight_comparison (pfx : String) (a b : Item) (n : Int)
    (ha : resolvedSort pfx a = some (Value.vNum n)) (hb : resolvedSort pfx b = none) :
    (n = (b.index : Int) → defaultCompareFn a b pfx < 0)
  ∧ (n ≠ (b.index : Int) →
      (defaultCompareFn a b pfx).sign = (n - (b.index : Int)).sign)
  ∧ defaultCompareFn b a pfx = -(defaultCompareFn a b pfx) := by
  unfold resolvedSort at ha hb
  refine ⟨?_, ?_, ?_⟩
  · intro hEq
    simp [defaultCompareFn, ha, hb, valueStrictEqInt, Value.toNumber, hEq]
  · intro hNe
    simp only [defaultCompareFn, ha, hb, valueStrictEqInt, Value.toNumber]
    rw [if_neg (by simpa using hNe)]
  · by_cases hEq : n = (b.index : Int)
    · simp [defaultCompareFn, ha, hb, valueStrictEqInt, Value.toNumber, hEq]
    · simp only [defaultCompareFn, ha, hb, valueStrictEqInt, Value.toNumber]
      rw [if_neg (by simpa using hEq), if_neg (by simpa using hEq)]
      omega

/-- Witness for C1: item a with frontmatter sort 2, item b (pre-sort index
1) with no sort anywhere. -/
theorem c1_single_weight_comparison_witness :
    (defaultCompareFn (Item.mk 0 "a.md" false {} [("sort", Value.vNum 2)] [])
        (Item.mk 1 "b.md" false {} [] []) "").sign = ((2 : Int) - 1).sign
  ∧ defaultCompareFn (Item.mk 1 "b.md" false {} [] [])
        (Item.mk 0 "a.md" false {} [("sort", Value.vNum 2)] []) ""
      = -(defaultCompareFn (Item.mk 0 "a.md" false {} [("sort", Value.vNum 2)] [])
        (Item.mk 1 "b.md" false {} [] []) "") :=
  ⟨(c1_single_weight_comparison "" (Item.mk 0 "a.md" false {} [("sort", Value.vNum 2)] [])
      (Item.mk 1 "b.md" false {} [] []) 2 rfl rfl).2.1 (by decide),
   (c1_single_weight_comparison "" (Item.mk 0 "a.md" false {} [("sort", Value.vNum 2)] [])
      (Item.mk 1 "b.md" false {} [] []) 2 rfl rfl).2.2⟩

/-! ## C9 -/

/-- C9: when the host configuration already holds a (non-empty) nav, the
plugin leaves it unchanged and never writes the generated nav into it,
while the sidebar is still produced and written; the generated nav is
written only when no nav is configured. -/
theorem c9_existing_nav_untouched (nav0 : Option (List NavItem)) (data : List Item)
    (opts : PluginOptions) :
    (∀ l, nav0 = some l → l ≠ [] → (applyAutoNav nav0 data opts).1 = some l)
  ∧ (applyAutoNav nav0 data opts).2 = generateSidebar data opts
  ∧ (nav0 = none → (applyAutoNav nav0 data opts).1 = some (generateNav data))
  ∧ (∀ l, nav0 = some l → (applyAutoNav nav0 data opts).1 = some l) := by
  refine ⟨?_, rfl, ?_, ?_⟩
  · intro l h _
    subst h
    rfl
  · intro h
    subst h
    rfl
  · intro l h
    subst h
    rfl

/-- Witness for C9 at a concrete configured nav and a concrete tree. -/
theorem c9_existing_nav_untouched_witness :
    (applyAutoNav (some [{ text := "t", activeMatch := "/a/", link := "/a/x" }])
        [Item.mk 0 "a" true {} [] []] {}).1
      = some [{ text := "t", activeMatch := "/a/", link := "/a/x" }]
  ∧ (applyAutoNav none [Item.mk 0 "a" true {} [] []] {}).1
      = some (generateNav [Item.mk 0 "a" true {} [] []]) :=
  ⟨(c9_existing_nav_untouched (some [{ text := "t", activeMatch := "/a/", link := "/a/x" }])
      [Item.mk 0 "a" true {} [] []] {}).1 _ rfl (by decide),
   (c9_existing_nav_untouched none [Item.mk 0 "a" true {} [] []] {}).2.2.1 rfl⟩

/-! ## C10 -/

/-- The stripping function removes exactly the first occurrence of ".md":
prepending md-free text is transparent, and everything after the removed
occurrence (later ".md" occurrences included) is preserved verbatim. -/
theorem replaceFirstMd_append (a : List Char) (b : List Char)
    (h : containsMd a = false) :
    replaceFirstMd (a ++ mdChars ++ b) = a ++ b := by
  induction a with
  | nil => simp [replaceFirstMd, mdChars, List.isPrefixOf]
  | cons c a' ih =>
    have h' : containsMd a' = false := by
      simp [containsMd] at h
      exact h.2
    have hnp : mdChars.isPrefixOf (c :: a') = false := by
      simp [containsMd] at h
      exact h.1
    have key : mdChars.isPrefixOf (c :: (a' ++ mdChars ++ b)) = false := by
      match a' with
      | [] => simp [mdChars, List.isPrefixOf]
      | [x] => simp [mdChars, List.isPrefixOf]
      | x :: y :: a'' =>
        simp [mdChars, List.isPrefixOf] at hnp ⊢
        intro hc hx
        exact hnp hc hx
    have step : replaceFirstMd ((c :: a') ++ mdChars ++ b)
        = c :: replaceFirstMd (a' ++ mdChars ++ b) := by
      show replaceFirstMd (c :: (a' ++ mdChars ++ b))
        = c :: replaceFirstMd (a' ++ mdChars ++ b)
      rw [replaceFirstMd.eq_def]
      simp only [key]
      simp
    rw [step, ih h']
    simp

/-- C10: link and display-name stripping removes exactly the first
occurrence of ".md" anywhere in the accumulated string, not a trailing
extension: the general first-occurrence law for stripMd, and its effect on
the three emission sites (nav link via getFirstArticleFromFolder, sidebar
file link, stripped display name) when an ancestor folder name "a.md.docs"
or "x.md.y" carries the earlier occurrence — the ancestor's ".md" is
removed and the file's own ".md" survives. -/
theorem c10_strip_first_md_occurrence :
    (∀ a b : List Char, containsMd a = false →
      stripMd (String.mk (a ++ mdChars ++ b)) = String.mk (a ++ b))
  ∧ getFirstArticleFromFolder
      (Item.mk 0 "a.md.docs" true {} [] [Item.mk 0 "b.md" false {} [] []]) ""
      = "/a.docs/b.md"
  ∧ (traverseSubFile true "" [Item.mk 0 "c.md" false {} [] []] "/x.md.y").2
      = [SidebarItem.mk (Value.vStr "c") none none (some "/x.y/c.md")] := by
  refine ⟨?_, rfl, rfl⟩
  intro a b h
  exact congrArg String.mk (replaceFirstMd_append a b h)

/-- Witness for C10's quantified conjunct at a concrete input: stripping
"/x.md.y.md" removes the first ".md" only. -/
theorem c10_strip_first_md_occurrence_witness :
    stripMd (String.mk ("/x".toList ++ mdChars ++ ".y.md".toList))
      = String.mk ("/x".toList ++ ".y.md".toList) :=
  c10_strip_first_md_occurrence.1 "/x".toList ".y.md".toList (by decide)

/-! ## C2 -/

/-- A run of non-index file items is serialized one entry per item, in
order, leaving the pending link untouched. -/
theorem traverseGo_files (iafl : Bool) (pfx : String) (l : List Item)
    (parentPath : String) (l0 : Option String)
    (h : ∀ it ∈ l, ¬(stripMd it.name = "index") ∧ it.isFolder = false) :
    traverseGo iafl pfx l parentPath l0 = (l0, l.map (sidebarFileEntry pfx parentPath)) := by
  induction l generalizing l0 with
  | nil => simp [traverseGo]
  | cons x xs ih =>
    have hx := h x (List.mem_cons_self _ _)
    have hxs : ∀ it ∈ xs, ¬(stripMd it.name = "index") ∧ it.isFolder = false :=
      fun it hit => h it (List.mem_cons_of_mem _ hit)
    simp only [traverseGo]
    simp [show (stripMd x.name == "index") = false from by simpa using hx.1, hx.2, ih l0 hxs]

/-- In index-as-folder-link mode, a sibling list made of an index item
surrounded by non-index files folds the index into the pending link and
serializes exactly the other items. -/
theorem traverseGo_index_fold (pfx : String) (xs ys : List Item) (ix : Item)
    (p : String) (l0 : Option String) (hix : stripMd ix.name = "index")
    (hothers : ∀ c ∈ xs ++ ys, ¬(stripMd c.name = "index") ∧ c.isFolder = false) :
    traverseGo true pfx (xs ++ ix :: ys) p l0
      = (some (p ++ "/"), (xs ++ ys).map (sidebarFileEntry pfx p)) := by
  induction xs generalizing l0 with
  | nil =>
    simp only [List.nil_append, traverseGo]
    simp [show (stripMd ix.name == "index") = true from by simpa using hix,
      traverseGo_files true pfx ys p _ (by simpa using hothers)]
  | cons x xs' ih =>
    have hx := hothers x (by simp)
    have hrest : ∀ c ∈ xs' ++ ys, ¬(stripMd c.name = "index") ∧ c.isFolder = false :=
      fun c hc => hothers c (by simp at hc ⊢; tauto)
    simp only [List.cons_append, traverseGo]
    simp [show (stripMd x.name == "index") = false from by simpa using hx.1, hx.2, ih l0 hrest]

/-- C2: with indexAsFolderLink active (the default), a child whose stripped
name is "index" is never emitted as its own sidebar entry: for a children
list of two non-index files around the index item, the serialized items
are exactly the two other files and the index's path becomes the pending
link; and the enclosing folder's own group entry receives that path as its
link while its items are exactly the other children's entries. -/
theorem c2_index_folds_into_folder_link (pfx gp nm : String) (xs ys : List Item)
    (ix : Item) (i : Nat) (opts : ItemCacheOptions) (fm : Frontmatter)
    (hix : stripMd ix.name = "index")
    (hothers : ∀ c ∈ xs ++ ys, ¬(stripMd c.name = "index") ∧ c.isFolder = false)
    (hnm : ¬(stripMd nm = "index")) :
    traverseSubFile true pfx (xs ++ ix :: ys) (gp ++ "/" ++ nm)
      = (some (gp ++ "/" ++ nm ++ "/"),
         (xs ++ ys).map (sidebarFileEntry pfx (gp ++ "/" ++ nm)))
  ∧ traverseSubFile true pfx [Item.mk i nm true opts fm (xs ++ ix :: ys)] gp
      = (none,
         [SidebarItem.mk (fileNameOf pfx (Item.mk i nm true opts fm (xs ++ ix :: ys)))
            (some (opts.collapsed.getD false))
            (some ((xs ++ ys).map (sidebarFileEntry pfx (gp ++ "/" ++ nm))))
            (some (gp ++ "/" ++ nm ++ "/"))]) := by
  constructor
  · exact traverseGo_index_fold pfx xs ys ix (gp ++ "/" ++ nm) none hix hothers
  · simp only [traverseSubFile, traverseGo, traverseChildren]
    simp [show (stripMd nm = "index") = False from by simp [hnm], Item.name, Item.isFolder,
      Item.options,
      traverseGo_index_fold pfx xs ys ix (gp ++ "/" ++ nm) none hix hothers]

/-- Witness for C2: a folder "guide" with children a.md, index.md, b.md.
The group entry links to "/guide/" and its items are exactly a.md and
b.md. -/
theorem c2_index_folds_into_folder_link_witness :
    traverseSubFile true "" [Item.mk 0 "guide" true {} []
        [Item.mk 0 "a.md" false {} [] [], Item.mk 2 "index.md" false {} [] [],
         Item.mk 1 "b.md" false {} [] []]] ""
      = (none,
         [SidebarItem.mk (fileNameOf "" (Item.mk 0 "guide" true {} []
              [Item.mk 0 "a.md" false {} [] [], Item.mk 2 "index.md" false {} [] [],
               Item.mk 1 "b.md" false {} [] []]))
            (some false)
            (some ([Item.mk 0 "a.md" false {} [] [], Item.mk 1 "b.md" false {} [] []].map
              (sidebarFileEntry "" ("" ++ "/" ++ "guide"))))
            (some ("" ++ "/" ++ "guide" ++ "/"))]) :=
  (c2_index_folds_into_folder_link "" "" "guide"
    [Item.mk 0 "a.md" false {} [] []] [Item.mk 1 "b.md" false {} [] []]
    (Item.mk 2 "index.md" false {} [] []) 0 {} []
    (by decide) (by decide) (by decide)).2

/-! ## C8 -/

/-- C8: when a path's segment resolves as hidden (at its accumulated
position), tree insertion of the whole path equals insertion of only the
leading segments: no node is created for the hidden segment nor for any of
its remaining sub-segments, and the sibling list already built (including
a node of the same name created via another path) is left exactly as the
leading segments leave it. -/
theorem c8_hidden_segment_abandons_path (opts : PluginOptions) (env : Env)
    (srcDir : String) (siblings : List Item) (pre : List String) (s : String)
    (post : List String) (cur : String) :
    segHidden opts env srcDir (joinPath (pathAccum cur pre) s) s = true →
    insertPath opts env srcDir siblings (pre ++ s :: post) cur
      = insertPath opts env srcDir siblings pre cur := by
  induction pre generalizing siblings cur with
  | nil =>
    intro hhide
    simp only [pathAccum, List.foldl_nil] at hhide
    simp [insertPath, hhide]
  | cons p pre' ih =>
    intro hhide
    have hh' : segHidden opts env srcDir
        (joinPath (pathAccum (joinPath cur p) pre') s) s = true := by
      simpa [pathAccum] using hhide
    simp only [List.cons_append, insertPath]
    by_cases hp : segHidden opts env srcDir (joinPath cur p) p = true
    · simp [hp]
    · simp [hp]
      induction siblings with
      | nil =>
        rw [insertIntoSiblings.eq_def, insertIntoSiblings.eq_def]
        simp [ih [] (joinPath cur p) hh']
      | cons node tail ihs =>
        cases node with
        | mk i n f o fm ch =>
          rw [insertIntoSiblings.eq_def, insertIntoSiblings.eq_def]
          by_cases hn : (Item.mk i n f o fm ch).name == p
          · simp [hn, ih ch (joinPath cur p) hh']
          · simp only [hn, Bool.false_eq_true, if_false]
            simp [ihs]

/-- Witness for C8: itemsSetting hides "h"; inserting the path a/h/f.md
stops at "h" and leaves exactly what inserting ["a"] builds. -/
theorem c8_hidden_segment_abandons_path_witness :
    insertPath { itemsSetting := [("h", { hide := some true })] }
      { isDirectory := fun p => p == "a"
        times := fun _ _ => {}
        article := fun _ => [] }
      "" [] (["a"] ++ "h" :: ["f.md"]) ""
    = insertPath { itemsSetting := [("h", { hide := some true })] }
      { isDirectory := fun p => p == "a"
        times := fun _ _ => {}
        article := fun _ => [] }
      "" [] ["a"] "" :=
  c8_hidden_segment_abandons_path _ _ _ _ _ _ _ _ (by decide)

/-! ## C5 and C6: ordering lemmas -/

/-- Inserting into a sorted list stays sorted, needing totality and
transitivity of the relation only on a predicate covering the elements. -/
theorem pairwise_orderedInsert_local {α : Type} {r : α → α → Prop} [DecidableRel r]
    (P : α → Prop) (tot : ∀ x y, P x → P y → r x y ∨ r y x)
    (tr : ∀ x y z, P x → P y → P z → r x y → r y z → r x z)
    (a : α) (l : List α) (ha : P a) (hl : ∀ x ∈ l, P x) (hs : l.Pairwise r) :
    (List.orderedInsert r a l).Pairwise r := by
  induction l with
  | nil => simp [List.orderedInsert]
  | cons b l' ih =>
    have hb := hl b (List.mem_cons_self _ _)
    have hl' : ∀ x ∈ l', P x := fun x hx => hl x (List.mem_cons_of_mem _ hx)
    rw [List.pairwise_cons] at hs
    simp only [List.orderedInsert]
    by_cases hab : r a b
    · rw [if_pos hab]
      refine List.pairwise_cons.2 ⟨?_, List.pairwise_cons.2 ⟨hs.1, hs.2⟩⟩
      intro y hy
      rcases List.mem_cons.1 hy with rfl | hy'
      · exact hab
      · exact tr a b y ha hb (hl' y hy') hab (hs.1 y hy')
    · rw [if_neg hab]
      have hba : r b a := (tot a b ha hb).resolve_left hab
      refine List.pairwise_cons.2 ⟨?_, ih hl' hs.2⟩
      intro y hy
      rcases (List.mem_orderedInsert r).1 hy with rfl | hy'
      · exact hba
      · exact hs.1 y hy'

/-- The stable insertion sort yields a pairwise-ordered list, needing
totality and transitivity only on a predicate covering the input. -/
theorem pairwise_insertionSort_local {α : Type} {r : α → α → Prop} [DecidableRel r]
    (P : α → Prop) (tot : ∀ x y, P x → P y → r x y ∨ r y x)
    (tr : ∀ x y z, P x → P y → P z → r x y → r y z → r x z)
    (l : List α) (hl : ∀ x ∈ l, P x) : (List.insertionSort r l).Pairwise r := by
  induction l with
  | nil => simp [List.insertionSort]
  | cons a l' ih =>
    have ha := hl a (List.mem_cons_self _ _)
    have hl' : ∀ x ∈ l', P x := fun x hx => hl x (List.mem_cons_of_mem _ hx)
    simp only [List.insertionSort]
    exact pairwise_orderedInsert_local P tot tr a _ ha
      (fun x hx => hl' x ((List.perm_insertionSort r l').mem_iff.1 hx)) (ih hl')

/-- The resolved sort weight depends only on an item's frontmatter and
options. -/
theorem resolvedSort_congr (pfx : String) (it it' : Item)
    (ho : it'.options = it.options) (hf : it'.frontmatter = it.frontmatter) :
    resolvedSort pfx it' = resolvedSort pfx it := by
  simp [resolvedSort, ho, hf]

/-- Every item produced by the index-assignment pass keeps the options and
frontmatter of an input item. -/
theorem mem_assignIndexes (cmp : Item → Item → String → Int) (pfx : String)
    (l : List Item) (i : Nat) (it' : Item) (h : it' ∈ assignIndexes cmp pfx l i) :
    ∃ it ∈ l, it'.options = it.options ∧ it'.frontmatter = it.frontmatter := by
  induction l generalizing i with
  | nil => simp [assignIndexes] at h
  | cons x xs ih =>
    simp only [assignIndexes] at h
    rcases List.mem_cons.1 h with rfl | h'
    · refine ⟨x, List.mem_cons_self _ _, ?_⟩
      cases x with
      | mk j n f o fm ch => simp [assignItem, Item.options, Item.frontmatter]
    · obtain ⟨it, hit, ho, hf⟩ := ih (i + 1) h'
      exact ⟨it, List.mem_cons_of_mem _ hit, ho, hf⟩

/-- A defined resolved weight evaluates sortWeightD to its number. -/
theorem sortWeightD_eq (pfx : String) (it : Item) (n : Int)
    (h : resolvedSort pfx it = some (Value.vNum n)) : sortWeightD pfx it = n := by
  simp [sortWeightD, h, Value.toNumber]

/-- With a nonzero (or absent) first-commit time, the comparator's time key
is the spec's earliest timestamp. -/
theorem jsOrNum_earliest (o : ItemCacheOptions) (h : o.firstCommitTime ≠ some 0) :
    jsOrNum o.firstCommitTime o.birthTime = earliestTimestamp o := by
  cases hfc : o.firstCommitTime with
  | none => simp [jsOrNum, earliestTimestamp, hfc]
  | some n =>
    have : n ≠ 0 := by
      intro h0
      exact h (by rw [hfc, h0])
    simp [jsOrNum, earliestTimestamp, hfc, this]

/-- When both items carry numeric resolved weights (and no zero
first-commit time), the default comparator accepts exactly the
weight-then-earliest-timestamp lexicographic order. -/
theorem defaultCompareFn_le_iff (pfx : String) (x y : Item) (nx ny : Int)
    (hx : resolvedSort pfx x = some (Value.vNum nx))
    (hy : resolvedSort pfx y = some (Value.vNum ny))
    (hfx : x.options.firstCommitTime ≠ some 0)
    (hfy : y.options.firstCommitTime ≠ some 0) :
    defaultCompareFn x y pfx ≤ 0 ↔
      (nx < ny ∨ (nx = ny ∧ earliestTimestamp x.options ≤ earliestTimestamp y.options)) := by
  unfold resolvedSort at hx hy
  simp only [defaultCompareFn, hx, hy, jsOrNum_earliest _ hfx, jsOrNum_earliest _ hfy,
    Value.toNumber, jsOrInt]
  by_cases hd : nx - ny = 0
  · simp only [hd, if_true]
    omega
  · simp only [hd, if_false]
    omega

/-- When neither item carries a resolved weight (and no zero first-commit
time), the default comparator accepts exactly the ascending
earliest-timestamp order. -/
theorem defaultCompareFn_le_iff_noweight (pfx : String) (x y : Item)
    (hx : resolvedSort pfx x = none) (hy : resolvedSort pfx y = none)
    (hfx : x.options.firstCommitTime ≠ some 0)
    (hfy : y.options.firstCommitTime ≠ some 0) :
    defaultCompareFn x y pfx ≤ 0 ↔
      earliestTimestamp x.options ≤ earliestTimestamp y.options := by
  unfold resolvedSort at hx hy
  simp only [defaultCompareFn, hx, hy, jsOrNum_earliest _ hfx, jsOrNum_earliest _ hfy]
  omega

/-! ## C5 -/

/-- C5: when every sibling has a defined numeric resolved sort weight (and
no artificial zero first-commit time, which the git-log filter of
getTimestamp never produces), the recursively applied stable sort with the
default comparator puts the siblings in ascending weight order, breaking
weight ties by ascending earliest timestamp. -/
theorem c5_all_weights_ascending (pfx : String) (l : List Item)
    (hw : ∀ it ∈ l, ∃ n : Int, resolvedSort pfx it = some (Value.vNum n))
    (hfc : ∀ it ∈ l, it.options.firstCommitTime ≠ some 0) :
    (sortStructuredData defaultCompareFn pfx l).Pairwise (fun x y =>
      sortWeightD pfx x < sortWeightD pfx y ∨
      (sortWeightD pfx x = sortWeightD pfx y ∧
        earliestTimestamp x.options ≤ earliestTimestamp y.options)) := by
  have hPL : ∀ it ∈ assignIndexes defaultCompareFn pfx l 0,
      (∃ n : Int, resolvedSort pfx it = some (Value.vNum n)) ∧
        it.options.firstCommitTime ≠ some 0 := by
    intro it hit
    obtain ⟨it0, hit0, ho, hf⟩ := mem_assignIndexes _ _ _ _ _ hit
    refine ⟨?_, ?_⟩
    · obtain ⟨n, hn⟩ := hw it0 hit0
      exact ⟨n, by rw [resolvedSort_congr pfx it0 it ho hf]; exact hn⟩
    · rw [ho]
      exact hfc it0 hit0
  have tot : ∀ x y,
      ((∃ n : Int, resolvedSort pfx x = some (Value.vNum n)) ∧
        x.options.firstCommitTime ≠ some 0) →
      ((∃ n : Int, resolvedSort pfx y = some (Value.vNum n)) ∧
        y.options.firstCommitTime ≠ some 0) →
      defaultCompareFn x y pfx ≤ 0 ∨ defaultCompareFn y x pfx ≤ 0 := by
    rintro x y ⟨⟨nx, hx⟩, hfx⟩ ⟨⟨ny, hy⟩, hfy⟩
    rw [defaultCompareFn_le_iff pfx x y nx ny hx hy hfx hfy,
      defaultCompareFn_le_iff pfx y x ny nx hy hx hfy hfx]
    omega
  have tr : ∀ x y z,
      ((∃ n : Int, resolvedSort pfx x = some (Value.vNum n)) ∧
        x.options.firstCommitTime ≠ some 0) →
      ((∃ n : Int, resolvedSort pfx y = some (Value.vNum n)) ∧
        y.options.firstCommitTime ≠ some 0) →
      ((∃ n : Int, resolvedSort pfx z = some (Value.vNum n)) ∧
        z.options.firstCommitTime ≠ some 0) →
      defaultCompareFn x y pfx ≤ 0 → defaultCompareFn y z pfx ≤ 0 →
      defaultCompareFn x z pfx ≤ 0 := by
    rintro x y z ⟨⟨nx, hx⟩, hfx⟩ ⟨⟨ny, hy⟩, hfy⟩ ⟨⟨nz, hz⟩, hfz⟩ h1 h2
    rw [defaultCompareFn_le_iff pfx x y nx ny hx hy hfx hfy] at h1
    rw [defaultCompareFn_le_iff pfx y z ny nz hy hz hfy hfz] at h2
    rw [defaultCompareFn_le_iff pfx x z nx nz hx hz hfx hfz]
    omega
  have hpw := pairwise_insertionSort_local _ tot tr
    (assignIndexes defaultCompareFn pfx l 0) hPL
  refine List.Pairwise.imp_of_mem ?_ hpw
  intro a b ha hb hr
  obtain ⟨⟨na, hna⟩, hfa⟩ := hPL a ((List.perm_insertionSort _ _).mem_iff.1 ha)
  obtain ⟨⟨nb, hnb⟩, hfb⟩ := hPL b ((List.perm_insertionSort _ _).mem_iff.1 hb)
  rw [sortWeightD_eq pfx a na hna, sortWeightD_eq pfx b nb hnb]
  exact (defaultCompareFn_le_iff pfx a b na nb hna hnb hfa hfb).1 hr

/-- Witness for C5: weights 1 and 0 with distinct birth times. -/
theorem c5_all_weights_ascending_witness :
    (sortStructuredData defaultCompareFn ""
      [Item.mk 0 "a.md" false { sort := some 1, birthTime := some 10 } [] [],
       Item.mk 0 "b.md" false { sort := some 0, birthTime := some 5 } [] []]).Pairwise
      (fun x y =>
        sortWeightD "" x < sortWeightD "" y ∨
        (sortWeightD "" x = sortWeightD "" y ∧
          earliestTimestamp x.options ≤ earliestTimestamp y.options)) :=
  c5_all_weights_ascending ""
    [Item.mk 0 "a.md" false { sort := some 1, birthTime := some 10 } [] [],
     Item.mk 0 "b.md" false { sort := some 0, birthTime := some 5 } [] []]
    (by
      intro it hit
      simp only [List.mem_cons, List.not_mem_nil, or_false] at hit
      rcases hit with rfl | rfl
      · exact ⟨1, rfl⟩
      · exact ⟨0, rfl⟩)
    (by
      intro it hit
      simp only [List.mem_cons, List.not_mem_nil, or_false] at hit
      rcases hit with rfl | rfl <;> decide)

/-! ## C6 -/

/-- C6: when no sibling has a resolved sort weight (and no artificial zero
first-commit time), the sorted output is in ascending order of each item's
earliest timestamp — the version-control first-commit time when defined,
else the local file creation time. -/
theorem c6_no_weights_time_ascending (pfx : String) (l : List Item)
    (hw : ∀ it ∈ l, resolvedSort pfx it = none)
    (hfc : ∀ it ∈ l, it.options.firstCommitTime ≠ some 0) :
    (sortStructuredData defaultCompareFn pfx l).Pairwise (fun x y =>
      earliestTimestamp x.options ≤ earliestTimestamp y.options) := by
  have hPL : ∀ it ∈ assignIndexes defaultCompareFn pfx l 0,
      resolvedSort pfx it = none ∧ it.options.firstCommitTime ≠ some 0 := by
    intro it hit
    obtain ⟨it0, hit0, ho, hf⟩ := mem_assignIndexes _ _ _ _ _ hit
    refine ⟨?_, ?_⟩
    · rw [resolvedSort_congr pfx it0 it ho hf]
      exact hw it0 hit0
    · rw [ho]
      exact hfc it0 hit0
  have tot : ∀ x y,
      (resolvedSort pfx x = none ∧ x.options.firstCommitTime ≠ some 0) →
      (resolvedSort pfx y = none ∧ y.options.firstCommitTime ≠ some 0) →
      defaultCompareFn x y pfx ≤ 0 ∨ defaultCompareFn y x pfx ≤ 0 := by
    rintro x y ⟨hx, hfx⟩ ⟨hy, hfy⟩
    rw [defaultCompareFn_le_iff_noweight pfx x y hx hy hfx hfy,
      defaultCompareFn_le_iff_noweight pfx y x hy hx hfy hfx]
    omega
  have tr : ∀ x y z,
      (resolvedSort pfx x = none ∧ x.options.firstCommitTime ≠ some 0) →
      (resolvedSort pfx y = none ∧ y.options.firstCommitTime ≠ some 0) →
      (resolvedSort pfx z = none ∧ z.options.firstCommitTime ≠ some 0) →
      defaultCompareFn x y pfx ≤ 0 → defaultCompareFn y z pfx ≤ 0 →
      defaultCompareFn x z pfx ≤ 0 := by
    rintro x y z ⟨hx, hfx⟩ ⟨hy, hfy⟩ ⟨hz, hfz⟩ h1 h2
    rw [defaultCompareFn_le_iff_noweight pfx x y hx hy hfx hfy] at h1
    rw [defaultCompareFn_le_iff_noweight pfx y z hy hz hfy hfz] at h2
    rw [defaultCompareFn_le_iff_noweight pfx x z hx hz hfx hfz]
    omega
  have hpw := pairwise_insertionSort_local _ tot tr
    (assignIndexes defaultCompareFn pfx l 0) hPL
  refine List.Pairwise.imp_of_mem ?_ hpw
  intro a b ha hb hr
  obtain ⟨hna, hfa⟩ := hPL a ((List.perm_insertionSort _ _).mem_iff.1 ha)
  obtain ⟨hnb, hfb⟩ := hPL b ((List.perm_insertionSort _ _).mem_iff.1 hb)
  exact (defaultCompareFn_le_iff_noweight pfx a b hna hnb hfa hfb).1 hr

/-- Witness for C6: no weights, first-commit times 20 and 8. -/
theorem c6_no_weights_time_ascending_witness :
    (sortStructuredData defaultCompareFn ""
      [Item.mk 0 "a.md" false { birthTime := some 1, firstCommitTime := some 20 } [] [],
       Item.mk 0 "b.md" false { birthTime := some 2, firstCommitTime := some 8 } [] []]).Pairwise
      (fun x y => earliestTimestamp x.options ≤ earliestTimestamp y.options) :=
  c6_no_weights_time_ascending ""
    [Item.mk 0 "a.md" false { birthTime := some 1, firstCommitTime := some 20 } [] [],
     Item.mk 0 "b.md" false { birthTime := some 2, firstCommitTime := some 8 } [] []]
    (by
      intro it hit
      simp only [List.mem_cons, List.not_mem_nil, or_false] at hit
      rcases hit with rfl | rfl <;> rfl)
    (by
      intro it hit
      simp only [List.mem_cons, List.not_mem_nil, or_false] at hit
      rcases hit with rfl | rfl <;> decide)

/-! ## C7: aggregation lemmas -/

theorem jsMinInf_none_left (b : Option Int) : jsMinInf none b = b := by
  cases b <;> rfl

theorem jsMinInf_none_right (a : Option Int) : jsMinInf a none = a := by
  cases a <;> rfl

theorem jsMinInf_assoc (a b c : Option Int) :
    jsMinInf (jsMinInf a b) c = jsMinInf a (jsMinInf b c) := by
  cases a <;> cases b <;> cases c <;> simp [jsMinInf, min_assoc]

theorem minO_cons (x : Int) (t : List Int) : minO (x :: t) = jsMinInf (some x) (minO t) := by
  cases h : minO t <;> simp [minO, h, jsMinInf]

theorem minO_append (a b : List Int) : minO (a ++ b) = jsMinInf (minO a) (minO b) := by
  induction a with
  | nil => simp [minO, jsMinInf_none_left]
  | cons x a' ih =>
    rw [List.cons_append, minO_cons, ih, minO_cons, jsMinInf_assoc]

theorem minO_toList (o : Option Int) : minO o.toList = o := by
  cases o <;> rfl

theorem maxZ_nonneg (l : List Int) : 0 ≤ maxZ l := by
  induction l with
  | nil => simp [maxZ]
  | cons x t ih => simp only [maxZ]; omega

theorem maxZ_append (a b : List Int) : maxZ (a ++ b) = max (maxZ a) (maxZ b) := by
  induction a with
  | nil =>
    simp only [List.nil_append, maxZ]
    have := maxZ_nonneg b
    omega
  | cons x a' ih => simp [maxZ, ih, max_assoc]

theorem zeroToNone_getD (v : Option Int) : (zeroToNone v).getD 0 = v.getD 0 := by
  match v with
  | none => rfl
  | some n =>
    by_cases h : n = 0
    · subst h; rfl
    · simp [zeroToNone, h]

theorem maxO_eq_none_iff (l : List Int) : maxO l = none ↔ l = [] := by
  cases l with
  | nil => simp [maxO]
  | cons x t =>
    simp only [maxO]
    cases h : maxO t <;> simp

theorem maxZ_sentinel_eq_maxO (l : List Int) (h : ∀ n ∈ l, 0 < n) :
    (if maxZ l = 0 then none else some (maxZ l)) = maxO l := by
  induction l with
  | nil => simp [maxZ, maxO]
  | cons x t ih =>
    have hx : 0 < x := h x (List.mem_cons_self _ _)
    have ht : ∀ n ∈ t, 0 < n := fun n hn => h n (List.mem_cons_of_mem _ hn)
    have hzt := maxZ_nonneg t
    have hpos : maxZ (x :: t) ≠ 0 := by
      simp only [maxZ]
      omega
    rw [if_neg hpos]
    cases hmt : maxO t with
    | none =>
      have : t = [] := (maxO_eq_none_iff t).1 hmt
      subst this
      simp only [maxO, maxZ]
      congr 1
      omega
    | some y =>
      have := ih ht
      rw [hmt] at this
      have hy : maxZ t = y ∧ maxZ t ≠ 0 := by
        by_cases hz : maxZ t = 0
        · rw [if_pos hz] at this
          exact absurd this (by simp)
        · rw [if_neg hz] at this
          exact ⟨by simpa using this, hz⟩
      simp only [maxO, hmt, maxZ, hy.1]

/-- The closed form of the getFolderCommitTimes accumulator loop: the min
side is the minimum over the descendant files' first-commit times, the max
side is the 0-floored maximum over their last-commit times joined with the
incoming accumulator. -/
theorem gfcFold_eq (k : Nat) : ∀ (cs : List Item), sizeOf cs ≤ k →
    ∀ (mn mx : Option Int), 0 ≤ mx.getD 0 →
    gfcFold cs (mn, mx)
      = (jsMinInf mn (minO (descFirstsL cs)),
         if cs.isEmpty then mx
         else some (max (mx.getD 0) (maxZ (descLastsL cs)))) := by
  induction k with
  | zero =>
    intro cs hcs
    exfalso
    cases cs <;> simp at hcs
  | succ k ih =>
    intro cs hcs mn mx hmx
    match cs with
    | [] =>
      simp [gfcFold, descFirstsL, minO, jsMinInf_none_right]
    | item :: rest =>
      cases item with
      | mk i n f o fm children =>
        have hszr : sizeOf rest ≤ k := by
          simp only [List.cons.sizeOf_spec] at hcs
          omega
        have hszc : sizeOf children ≤ k := by
          simp only [List.cons.sizeOf_spec, Item.mk.sizeOf_spec] at hcs
          omega
        have hcontrib : gfcContrib (Item.mk i n f o fm children)
            = (if f then minO (descFirstsL children) else o.firstCommitTime,
               if f then
                 zeroToNone (if children.isEmpty then (none : Option Int)
                   else some (max 0 (maxZ (descLastsL children))))
               else o.lastCommitTime) := by
          simp only [gfcContrib]
          rw [ih children hszc none none (by simp)]
          cases f <;> simp [jsMinInf_none_left]
        have hc1 : (gfcContrib (Item.mk i n f o fm children)).1
            = minO (descFirsts (Item.mk i n f o fm children)) := by
          rw [hcontrib]
          cases f <;> simp [descFirsts, minO_toList]
        have hc2 : max (mx.getD 0) ((gfcContrib (Item.mk i n f o fm children)).2.getD 0)
            = max (mx.getD 0) (maxZ (descLasts (Item.mk i n f o fm children))) := by
          rw [hcontrib]
          cases f with
          | false =>
            simp only [if_false, descLasts, Bool.false_eq_true]
            cases o.lastCommitTime with
            | none => simp [maxZ]
            | some v =>
              simp only [Option.getD_some, Option.toList_some, maxZ]
              omega
          | true =>
            simp only [if_true, descLasts, zeroToNone_getD]
            cases children with
            | nil => simp [descLastsL, maxZ]
            | cons c cr =>
              have := maxZ_nonneg (descLastsL (c :: cr))
              simp only [List.isEmpty_cons, if_false, Option.getD_some,
                Bool.false_eq_true]
              omega
        have step : gfcFold (Item.mk i n f o fm children :: rest) (mn, mx)
            = gfcFold rest
              (jsMinInf mn (gfcContrib (Item.mk i n f o fm children)).1,
               some (max (mx.getD 0)
                 ((gfcContrib (Item.mk i n f o fm children)).2.getD 0))) := by
          rw [gfcFold.eq_def]
        rw [step, ih rest hszr _ _ (by simp; omega)]
        rw [hc1, hc2]
        refine Prod.ext ?_ ?_
        · simp only [descFirstsL, minO_append, jsMinInf_assoc]
        · simp only [List.isEmpty_cons, Bool.false_eq_true, if_false, descLastsL,
            maxZ_append]
          cases rest with
          | nil =>
            simp only [descLastsL, List.isEmpty_nil, if_true, List.append_nil, maxZ]
            have := maxZ_nonneg (descLasts (Item.mk i n f o fm children))
            congr 1
            omega
          | cons r rs =>
            simp only [List.isEmpty_cons, Bool.false_eq_true, if_false,
              Option.getD_some]
            have := maxZ_nonneg (descLasts (Item.mk i n f o fm children))
            have := maxZ_nonneg (descLastsL (r :: rs))
            congr 1
            omega

/-- The closed form of getFolderCommitTimes: minimum of the descendant
files' first-commit times, and the 0-sentinel maximum of their last-commit
times. -/
theorem getFolderCommitTimes_eq (cs : List Item) :
    getFolderCommitTimes cs
      = (minO (descFirstsL cs),
         if maxZ (descLastsL cs) = 0 then none
         else some (maxZ (descLastsL cs))) := by
  unfold getFolderCommitTimes
  rw [gfcFold_eq (sizeOf cs) cs le_rfl none none (by simp)]
  refine Prod.ext ?_ ?_
  · simp [jsMinInf_none_left]
  · cases cs with
    | nil => simp [descLastsL, maxZ, zeroToNone]
    | cons c cr =>
      simp only [List.isEmpty_cons, Bool.false_eq_true, if_false, Option.getD_none]
      by_cases hz : maxZ (descLastsL (c :: cr)) = 0
      · simp [hz, zeroToNone]
      · have h0 := maxZ_nonneg (descLastsL (c :: cr))
        rw [if_neg hz, show max 0 (maxZ (descLastsL (c :: cr)))
          = maxZ (descLastsL (c :: cr)) from by omega]
        simp [zeroToNone, hz]

/-- The bottom-up update pass never changes which descendant-file
timestamps a forest carries. -/
theorem desc_update (k : Nat) : ∀ (l : List Item), sizeOf l ≤ k →
    descFirstsL (updateCommitTimes l) = descFirstsL l ∧
    descLastsL (updateCommitTimes l) = descLastsL l := by
  induction k with
  | zero =>
    intro l hl
    exfalso
    cases l <;> simp at hl
  | succ k ih =>
    intro l hl
    match l with
    | [] => simp [updateCommitTimes]
    | item :: rest =>
      cases item with
      | mk i n f o fm children =>
        have hszr : sizeOf rest ≤ k := by
          simp only [List.cons.sizeOf_spec] at hl
          omega
        have hszc : sizeOf children ≤ k := by
          simp only [List.cons.sizeOf_spec, Item.mk.sizeOf_spec] at hl
          omega
        have hr := ih rest hszr
        have hc := ih children hszc
        cases f with
        | false =>
          simp [updateCommitTimes, updateItem, descFirstsL, descLastsL, hr.1, hr.2]
        | true =>
          simp [updateCommitTimes, updateItem, descFirstsL, descLastsL, descFirsts,
            descLasts, hr.1, hr.2, hc.1, hc.2]

/-- C7: after the bottom-up aggregation pass over a completed tree (whose
files are childless, per the data model, and whose files' last-commit
timestamps are genuine positive epoch instants, as the git-log filter
guarantees), every folder node's firstCommitTime is the minimum of the
first-commit times over all its descendant file nodes and its
lastCommitTime is the maximum of their last-commit times, each undefined
when no descendant file carries the timestamp — a characterization
independent of the order in which the input paths built the tree. -/
theorem c7_folder_times_are_descendant_aggregates (l : List Item)
    (hwf : filesChildlessL l = true)
    (hpos : ∀ t ∈ descLastsL l, 0 < t) :
    ∀ it ∈ allNodesL (updateCommitTimes l), it.isFolder = true →
      it.options.firstCommitTime = minO (descFirsts it) ∧
      it.options.lastCommitTime = maxO (descLasts it) := by
  have main : ∀ (k : Nat) (l : List Item), sizeOf l ≤ k →
      filesChildlessL l = true → (∀ t ∈ descLastsL l, 0 < t) →
      ∀ it ∈ allNodesL (updateCommitTimes l), it.isFolder = true →
        it.options.firstCommitTime = minO (descFirsts it) ∧
        it.options.lastCommitTime = maxO (descLasts it) := by
    intro k
    induction k with
    | zero =>
      intro l hl
      exfalso
      cases l <;> simp at hl
    | succ k ih =>
      intro l hl hwf hpos
      match l with
      | [] =>
        intro it hit
        simp [updateCommitTimes, allNodesL] at hit
      | item :: rest =>
        cases item with
        | mk i n f o fm children =>
          have hszr : sizeOf rest ≤ k := by
            simp only [List.cons.sizeOf_spec] at hl
            omega
          have hszc : sizeOf children ≤ k := by
            simp only [List.cons.sizeOf_spec, Item.mk.sizeOf_spec] at hl
            omega
          have hwf2 : filesChildless (Item.mk i n f o fm children) = true ∧
              filesChildlessL rest = true := by
            simpa [filesChildlessL, Bool.and_eq_true] using hwf
          have hposI : ∀ t ∈ descLasts (Item.mk i n f o fm children), 0 < t := by
            intro t ht
            exact hpos t (by simp [descLastsL, List.mem_append]; exact Or.inl ht)
          have hposR : ∀ t ∈ descLastsL rest, 0 < t := by
            intro t ht
            exact hpos t (by simp [descLastsL, List.mem_append]; exact Or.inr ht)
          intro it hit hfold
          simp only [updateCommitTimes, allNodesL] at hit
          rcases List.mem_append.1 hit with hitL | hitR
          · cases f with
            | false =>
              have hch : children = [] := by
                have := hwf2.1
                simp [filesChildless, Bool.and_eq_true] at this
                exact this.1
              subst hch
              simp only [updateItem, Bool.false_eq_true, if_false, allNodes,
                allNodesL] at hitL
              rcases List.mem_cons.1 hitL with rfl | h'
              · exact absurd hfold (by simp [Item.isFolder])
              · simp at h'
            | true =>
              simp only [updateItem, if_true, allNodes] at hitL
              rcases List.mem_cons.1 hitL with rfl | hitC
              · have hfirst := congrArg Prod.fst (getFolderCommitTimes_eq
                  (updateCommitTimes children))
                have hlast := congrArg Prod.snd (getFolderCommitTimes_eq
                  (updateCommitTimes children))
                have hdesc := desc_update (sizeOf children) children le_rfl
                constructor
                · simp only [Item.options, Item.isFolder]
                  rw [hfirst]
                  simp [descFirsts, Item.children]
                · simp only [Item.options, Item.isFolder]
                  rw [hlast]
                  have hposC : ∀ t ∈ descLastsL (updateCommitTimes children), 0 < t := by
                    rw [hdesc.2]
                    intro t ht
                    exact hposI t (by simpa [descLasts] using ht)
                  simp only [descLasts, if_true]
                  exact maxZ_sentinel_eq_maxO _ hposC
              · have hwfC : filesChildlessL children = true := by
                  have := hwf2.1
                  simpa [filesChildless, Bool.and_eq_true] using this
                have hposC : ∀ t ∈ descLastsL children, 0 < t := by
                  intro t ht
                  exact hposI t (by simpa [descLasts] using ht)
                exact ih children hszc hwfC hposC it hitC hfold
          · exact ih rest hszr hwf2.2 hposR it hitR hfold
  exact main (sizeOf l) l le_rfl hwf hpos

/-- Witness for C7: a folder with one file child carrying commit times
5/9; after the pass the folder node aggregates exactly them. -/
theorem c7_folder_times_are_descendant_aggregates_witness :
    (Item.mk 0 "f" true { firstCommitTime := some 5, lastCommitTime := some 9 } []
        [Item.mk 0 "a.md" false
          { firstCommitTime := some 5, lastCommitTime := some 9 } [] []]).options.firstCommitTime
      = minO (descFirsts (Item.mk 0 "f" true
          { firstCommitTime := some 5, lastCommitTime := some 9 } []
          [Item.mk 0 "a.md" false
            { firstCommitTime := some 5, lastCommitTime := some 9 } [] []]))
  ∧ (Item.mk 0 "f" true { firstCommitTime := some 5, lastCommitTime := some 9 } []
        [Item.mk 0 "a.md" false
          { firstCommitTime := some 5, lastCommitTime := some 9 } [] []]).options.lastCommitTime
      = maxO (descLasts (Item.mk 0 "f" true
          { firstCommitTime := some 5, lastCommitTime := some 9 } []
          [Item.mk 0 "a.md" false
            { firstCommitTime := some 5, lastCommitTime := some 9 } [] []])) :=
  c7_folder_times_are_descendant_aggregates
    [Item.mk 0 "f" true {} []
      [Item.mk 0 "a.md" false
        { firstCommitTime := some 5, lastCommitTime := some 9 } [] []]]
    (by decide)
    (by
      intro t ht
      simp [descLastsL, descLasts] at ht
      omega)
    (Item.mk 0 "f" true { firstCommitTime := some 5, lastCommitTime := some 9 } []
      [Item.mk 0 "a.md" false
        { firstCommitTime := some 5, lastCommitTime := some 9 } [] []])
    (List.Mem.head _)
    rfl
